import Mathlib

/-!
Verification of the rust-bfield core: the b-field member (marker insert /
lookup / destructive mask) and the cascade of members, as implemented in
src/bfield_member.rs and src/bfield.rs.

Modelling conventions:
* The memory-mapped bit vector is modelled as an unbounded `Nat` used as a
  bitset; `get_range` and `set_range` follow the collaborator contract of the
  spec (§4.2), with `set_range` OR-ing the supplied pattern into the existing
  bits (the monotone-update invariant the b-field consumes).
* `u128` popcounts (`count_ones`) are modelled by `popcountW n 128`.
* The murmurhash3 hash is an external pure function; definitions take it as a
  parameter `hash : Key → Nat × Nat` (the two 64-bit halves).
* The combinadic codec `rank`/`unrank` (mmap_bitvec::combinatorial) is an
  external collaborator; it is modelled from the spec (§4.1): `rank v κ` is
  the v-th size-κ subset in colexicographic order rendered as a bit pattern,
  `unrank` its inverse on 128-bit words.
* Machine integers are `Nat` with explicit `% 2 ^ 64` (resp. 2 ^ 32, 2 ^ 128)
  where Rust wraps or truncates.
-/

namespace RustBfield

/-- Number of set bits of `n` among bit positions `0 .. w-1`.
`popcountW n 128` models `u128::count_ones` for values below `2 ^ 128`. -/
def popcountW (n w : Nat) : Nat :=
  ((Finset.range w).filter (fun i => n.testBit i = true)).card

/-- Bitwise inclusion: every set bit of `a` is set in `b`. -/
def bitSub (a b : Nat) : Prop :=
  ∀ i, a.testBit i = true → b.testBit i = true

theorem bitSub_refl (a : Nat) : bitSub a a := fun _ h => h

theorem bitSub_trans {a b c : Nat} (h1 : bitSub a b) (h2 : bitSub b c) :
    bitSub a c := fun i h => h2 i (h1 i h)

theorem bitSub_lor_left (a b : Nat) : bitSub a (a ||| b) := by
  intro i h
  simp [Nat.testBit_or, h]

theorem bitSub_lor_right (a b : Nat) : bitSub b (a ||| b) := by
  intro i h
  simp [Nat.testBit_or, h]

theorem bitSub_lor_elim {a b c : Nat} (h1 : bitSub a c) (h2 : bitSub b c) :
    bitSub (a ||| b) c := by
  intro i h
  rw [Nat.testBit_or] at h
  rcases Bool.or_eq_true_iff.mp h with h' | h'
  · exact h1 i h'
  · exact h2 i h'

theorem bitSub_land {m a b : Nat} (h1 : bitSub m a) (h2 : bitSub m b) :
    bitSub m (a &&& b) := by
  intro i h
  simp [Nat.testBit_and, h1 i h, h2 i h]

theorem bitSub_of_lt_two_pow {a : Nat} (w : Nat) (h : a < 2 ^ w) :
    bitSub a (2 ^ w - 1) := by
  intro i hi
  rw [Nat.testBit_two_pow_sub_one]
  by_contra hc
  simp only [decide_eq_true_eq] at hc
  have : a < 2 ^ i := lt_of_lt_of_le h (Nat.pow_le_pow_right (by omega) (by omega))
  rw [Nat.testBit_lt_two_pow this] at hi
  exact Bool.false_ne_true hi

theorem lt_two_pow_of_bitSub {a b : Nat} {w : Nat} (hab : bitSub a b)
    (hb : b < 2 ^ w) : a < 2 ^ w := by
  apply Nat.lt_pow_two_of_testBit
  intro i hi
  by_contra hc
  have ha := hab i (by revert hc; cases a.testBit i <;> simp)
  rw [Nat.testBit_lt_two_pow (lt_of_lt_of_le hb (Nat.pow_le_pow_right (by omega) hi))] at ha
  exact Bool.false_ne_true ha

theorem popcountW_mono {a b : Nat} (w : Nat) (h : bitSub a b) :
    popcountW a w ≤ popcountW b w := by
  apply Finset.card_le_card
  intro i hi
  rcases Finset.mem_filter.mp hi with ⟨hr, hb⟩
  exact Finset.mem_filter.mpr ⟨hr, h i hb⟩

/-- Bitwise inclusion plus equal popcount (at a width covering both numbers)
forces equality. -/
theorem eq_of_bitSub_of_popcountW_le {a b w : Nat} (hab : bitSub a b)
    (hcard : popcountW b w ≤ popcountW a w) (ha : a < 2 ^ w) (hb : b < 2 ^ w) :
    a = b := by
  have hsub : ((Finset.range w).filter (fun i => a.testBit i = true)) ⊆
      ((Finset.range w).filter (fun i => b.testBit i = true)) := by
    intro i hi
    rcases Finset.mem_filter.mp hi with ⟨hr, hb⟩
    exact Finset.mem_filter.mpr ⟨hr, hab i hb⟩
  have hset := Finset.eq_of_subset_of_card_le hsub hcard
  apply Nat.eq_of_testBit_eq
  intro i
  by_cases hi : i < w
  · have hmem : (i ∈ (Finset.range w).filter (fun j => a.testBit j = true)) ↔
        (i ∈ (Finset.range w).filter (fun j => b.testBit j = true)) := by
      rw [hset]
    simp only [Finset.mem_filter, Finset.mem_range] at hmem
    cases hta : a.testBit i <;> cases htb : b.testBit i
    · rfl
    · exact absurd (hmem.mpr ⟨hi, htb⟩).2 (by simp [hta])
    · exact absurd (hmem.mp ⟨hi, hta⟩).2 (by simp [htb])
    · rfl
  · rw [Nat.testBit_lt_two_pow, Nat.testBit_lt_two_pow]
    · exact lt_of_lt_of_le hb (Nat.pow_le_pow_right (by omega) (by omega))
    · exact lt_of_lt_of_le ha (Nat.pow_le_pow_right (by omega) (by omega))

theorem popcountW_lor_two_pow {x p w : Nat} (hx : x.testBit p = false)
    (hp : p < w) : popcountW (x ||| 2 ^ p) w = popcountW x w + 1 := by
  have hfe : ((Finset.range w).filter (fun i => (x ||| 2 ^ p).testBit i = true)) =
      insert p ((Finset.range w).filter (fun i => x.testBit i = true)) := by
    ext i
    simp only [Finset.mem_filter, Finset.mem_range, Finset.mem_insert,
      Nat.testBit_or]
    constructor
    · rintro ⟨hiw, hbit⟩
      rcases Bool.or_eq_true_iff.mp hbit with h' | h'
      · exact Or.inr ⟨hiw, h'⟩
      · rw [Nat.testBit_two_pow] at h'
        exact Or.inl (Eq.symm (by simpa using h'))
    · rintro (rfl | ⟨hiw, hbit⟩)
      · exact ⟨hp, by simp [Nat.testBit_two_pow_self]⟩
      · exact ⟨hiw, by simp [hbit]⟩
  rw [popcountW, hfe, Finset.card_insert_of_not_mem, popcountW]
  simp [hx]

theorem popcountW_all_ones (w : Nat) : popcountW (2 ^ w - 1) w = w := by
  rw [popcountW]
  have : ((Finset.range w).filter (fun i => (2 ^ w - 1).testBit i = true)) =
      Finset.range w := by
    apply Finset.filter_true_of_mem
    intro i hi
    rw [Nat.testBit_two_pow_sub_one]
    simpa using Finset.mem_range.mp hi
  rw [this, Finset.card_range]

theorem popcountW_le_of_all_set {x w c : Nat} (h : ∀ j, j < c → x.testBit j = true)
    (hcw : c ≤ w) : c ≤ popcountW x w := by
  calc c = (Finset.range c).card := (Finset.card_range c).symm
  _ ≤ _ := by
      apply Finset.card_le_card
      intro i hi
      have hic := Finset.mem_range.mp hi
      exact Finset.mem_filter.mpr ⟨Finset.mem_range.mpr (lt_of_lt_of_le hic hcw),
        h i hic⟩

/-! ## The bit-range store (collaborator contract, spec §4.2)

Modelled from the spec: `MmapBitVec::get_range` / `set_range` from the
mmap-bitvec crate, which is external to this repository.  `set_range` results
in the bitwise OR of the existing bits and the supplied pattern (the monotone
invariant the b-field consumes); bits of the pattern above `hi - lo` are
ignored. -/

def get_range (bits lo hi : Nat) : Nat :=
  (bits >>> lo) % 2 ^ (hi - lo)

def set_range (bits lo hi pat : Nat) : Nat :=
  bits ||| ((pat % 2 ^ (hi - lo)) <<< lo)

theorem testBit_get_range (bits lo hi i : Nat) :
    (get_range bits lo hi).testBit i =
      (decide (i < hi - lo) && bits.testBit (lo + i)) := by
  simp [get_range, Nat.testBit_mod_two_pow, Nat.testBit_shiftRight]

theorem bitSub_set_range (bits lo hi pat : Nat) :
    bitSub bits (set_range bits lo hi pat) :=
  bitSub_lor_left _ _

theorem get_range_mono {b b' : Nat} (lo hi : Nat) (h : bitSub b b') :
    bitSub (get_range b lo hi) (get_range b' lo hi) := by
  intro i hi'
  rw [testBit_get_range] at hi' ⊢
  rcases Bool.and_eq_true_iff.mp hi' with ⟨h1, h2⟩
  simp [h1, h (lo + i) h2]

/-! ## The combinadic marker codec (collaborator contract, spec §4.1)

Modelled from the spec: `rank` / `unrank` from mmap_bitvec::combinatorial,
which is external to this repository.  `rank v κ` returns the v-th (in
colexicographic order) subset of size κ, rendered as a bit pattern; `unrank`
is its inverse, meaningful on words of popcount κ. -/

/-- Largest `c` in `0 .. v + κ` with `choose c κ ≤ v` (the greedy colex step). -/
def colexSearch (v κ : Nat) : Nat :=
  (List.range (v + κ + 1)).foldl (fun acc c => if Nat.choose c κ ≤ v then c else acc) 0

def rank (value κ : Nat) : Nat :=
  match κ with
  | 0 => 0
  | κ' + 1 =>
    let c := colexSearch value (κ' + 1)
    2 ^ c ||| rank (value - Nat.choose c (κ' + 1)) κ'

def unrank (m : Nat) : Nat :=
  ((List.range 128).foldl
    (fun (acc : Nat × Nat) b =>
      if m.testBit b then (acc.1 + 1, acc.2 + Nat.choose b (acc.1 + 1)) else acc)
    (0, 0)).2

/-! ## The b-field member (src/bfield_member.rs) -/

/-- Key bytes; hashing is the external murmurhash3_x64_128. -/
def Key := List Nat

structure BFieldParams where
  n_hashes : Nat
  marker_width : Nat
  n_marker_bits : Nat
deriving DecidableEq

/-- A member: its bit vector (as a bitset with its size in bits) plus
parameters.  The serialized `other: Option T` payload is opaque to the core
logic and not modelled. -/
structure BFieldMember where
  bits : Nat
  size : Nat
  params : BFieldParams
deriving DecidableEq

/-- align_bits in non-legacy mode is a no-op (src/bfield_member.rs:250). -/
def align_bits (b : Nat) (_len : Nat) : Nat := b

/-- marker_pos, non-legacy (src/bfield_member.rs:276): wrapping 64-bit
arithmetic, then modulus by `total_size - marker_size`. -/
def marker_pos (hash : Nat × Nat) (n total_size marker_size : Nat) : Nat :=
  ((hash.1 + n * hash.2) % 2 ^ 64) % (total_size - marker_size)

/-- insert_raw (src/bfield_member.rs:142): OR the aligned marker into the
`marker_width`-bit window at each of the `n_hashes` positions. -/
def insert_raw (hash : Key → Nat × Nat) (m : BFieldMember) (key : Key)
    (marker : Nat) : BFieldMember :=
  let marker_width := m.params.marker_width
  let h := hash key
  let aligned_marker := align_bits marker marker_width
  { m with
    bits := (List.range m.params.n_hashes).foldl
      (fun b marker_ix =>
        let pos := marker_pos h marker_ix m.size marker_width
        set_range b pos (pos + marker_width) aligned_marker) m.bits }

/-- BFieldMember::insert (src/bfield_member.rs:134). -/
def BFieldMember.insert (hash : Key → Nat × Nat) (m : BFieldMember) (key : Key)
    (value : Nat) : BFieldMember :=
  insert_raw hash m key (rank value m.params.n_marker_bits)

/-- The AND-accumulation loop of get_raw (src/bfield_member.rs:228-234),
including the early `return 0` when the running popcount drops below `k`. -/
def get_raw_go (bits marker_width k : Nat) : Nat → List Nat → Nat
  | merged, [] => merged
  | merged, pos :: rest =>
    let marker := get_range bits pos (pos + marker_width)
    let merged2 := merged &&& marker
    if popcountW merged2 128 < k then 0
    else get_raw_go bits marker_width k merged2 rest

/-- get_raw (src/bfield_member.rs:206): AND together the windows at the
`n_hashes` marker positions, starting from an all-ones u128. -/
def get_raw (hash : Key → Nat × Nat) (m : BFieldMember) (key : Key) (k : Nat) :
    Nat :=
  let marker_width := m.params.marker_width
  let h := hash key
  let positions := (List.range m.params.n_hashes).map
    (fun marker_ix => marker_pos h marker_ix m.size marker_width)
  align_bits (get_raw_go m.bits marker_width k (2 ^ 128 - 1) positions) marker_width

inductive BFieldLookup where
  | indeterminate
  | some (v : Nat)
  | none
deriving DecidableEq

/-- BFieldMember::get (src/bfield_member.rs:195): classify the merged marker
by comparing its popcount with κ.  The `as u32` cast of unrank's result is
the `% 2 ^ 32`. -/
def BFieldMember.get (hash : Key → Nat × Nat) (m : BFieldMember) (key : Key) :
    BFieldLookup :=
  let k := m.params.n_marker_bits
  let putative_marker := get_raw hash m key k
  if popcountW putative_marker 128 > k then .indeterminate
  else if popcountW putative_marker 128 = k then
    .some (unrank putative_marker % 2 ^ 32)
  else .none

/-- The bit-search loop of mask_or_insert (src/bfield_member.rs:176-181):
`while new_marker.count_ones() == k { new_marker = existing | (1 << pos);
pos += 1 }`.  Modelled with explicit fuel (129 suffices for u128 words);
returns the final `new_marker` and `pos`. -/
def mask_find_marker (existing k : Nat) : Nat → Nat → Nat → Nat × Nat
  | 0, pos, new_marker => (new_marker, pos)
  | fuel + 1, pos, new_marker =>
    if popcountW new_marker 128 = k then
      mask_find_marker existing k fuel (pos + 1) (existing ||| 2 ^ pos)
    else (new_marker, pos)

/-- BFieldMember::mask_or_insert (src/bfield_member.rs:161). -/
def BFieldMember.mask_or_insert (hash : Key → Nat × Nat) (m : BFieldMember)
    (key : Key) (value : Nat) : BFieldMember × Bool :=
  let correct_marker := rank value m.params.n_marker_bits
  let k := m.params.n_marker_bits
  let existing_marker := get_raw hash m key k
  if popcountW existing_marker 128 > k then (m, false)
  else if popcountW existing_marker 128 = k then
    if existing_marker = correct_marker then (m, true)
    else
      let new_marker := (mask_find_marker existing_marker k 129 0 existing_marker).1
      (insert_raw hash m key new_marker, false)
  else (insert_raw hash m key correct_marker, true)

/-! ## The b-field cascade (src/bfield.rs) -/

structure BField where
  members : List BFieldMember
  read_only : Bool
deriving DecidableEq

/-- Replace the n-th element of a list by `f` of it (models the in-place
`self.members[pass].insert(..)`). -/
def modifyNth (f : BFieldMember → BFieldMember) : Nat → List BFieldMember →
    List BFieldMember
  | _, [] => []
  | 0, m :: rest => f m :: rest
  | n + 1, m :: rest => m :: modifyNth f n rest

/-- The pre-check loop of BField::insert (src/bfield.rs:163-170): walk the
given members; stop with `false` at the first non-indeterminate verdict. -/
def insert_precheck (hash : Key → Nat × Nat) (key : Key) :
    List BFieldMember → Bool
  | [] => true
  | m :: rest =>
    match m.get hash key with
    | .indeterminate => insert_precheck hash key rest
    | _ => false

/-- BField::insert (src/bfield.rs:157): look the key up in members
`0 .. pass-1`; refuse if any is resolved there, else insert into member
`pass`.  Returns the updated b-field and the boolean result. -/
def BField.insert (hash : Key → Nat × Nat) (bf : BField) (key : Key)
    (value : Nat) (pass : Nat) : BField × Bool :=
  if insert_precheck hash key (bf.members.take pass) then
    ({ bf with
        members := modifyNth (fun m => m.insert hash key value) pass bf.members },
      true)
  else (bf, false)

/-- The walk of BField::get (src/bfield.rs:176-185): first non-indeterminate
member decides; all-indeterminate falls through to `none`. -/
def cascade_get_go (hash : Key → Nat × Nat) (key : Key) :
    List BFieldMember → Option Nat
  | [] => Option.none
  | m :: rest =>
    match m.get hash key with
    | .indeterminate => cascade_get_go hash key rest
    | .some value => Option.some value
    | .none => Option.none

/-- BField::get (src/bfield.rs:175). -/
def BField.get (hash : Key → Nat × Nat) (bf : BField) (key : Key) : Option Nat :=
  cascade_get_go hash key bf.members

/-- The loop of BField::force_insert (src/bfield.rs:148): mask_or_insert into
members in order until one returns true. -/
def force_insert_go (hash : Key → Nat × Nat) (key : Key) (value : Nat) :
    List BFieldMember → List BFieldMember
  | [] => []
  | m :: rest =>
    let r := m.mask_or_insert hash key value
    if r.2 then r.1 :: rest
    else r.1 :: force_insert_go hash key value rest

/-- BField::force_insert (src/bfield.rs:148). -/
def BField.force_insert (hash : Key → Nat × Nat) (bf : BField) (key : Key)
    (value : Nat) : BField :=
  { bf with members := force_insert_go hash key value bf.members }

/-! ## Member file naming (BField::create vs BField::from_file)

Paths are modelled as a parent-directory component list plus a file name
(lists of characters).  `fileStem` and `withExtension` model Rust
`Path::file_stem` and `Path::with_extension` for ordinary file names (a
non-empty stem, a non-empty new extension; the hidden-file special case is
irrelevant to the claims). -/

structure RPath where
  dir : List (List Char)
  base : List Char
deriving DecidableEq

/-- Split a reversed file name at the first '.' (i.e. the last '.' of the
name): returns the reversed extension and the reversed stem. -/
def splitRevAtDot : List Char → Option (List Char × List Char)
  | [] => Option.none
  | c :: rest =>
    if c = '.' then Option.some ([], rest)
    else
      match splitRevAtDot rest with
      | Option.none => Option.none
      | Option.some (e, s) => Option.some (c :: e, s)

/-- Rust Path::file_stem of a file name: the portion before the last '.'
(the whole name when there is no '.'). -/
def fileStem (s : List Char) : List Char :=
  match splitRevAtDot s.reverse with
  | Option.none => s
  | Option.some (_, stemRev) => stemRev.reverse

/-- Rust Path::with_extension on a file name, for a non-empty new extension:
replace everything after the last '.' (append when there is none). -/
def withExtension (s e : List Char) : List Char :=
  fileStem s ++ '.' :: e

/-- The extension string `format!("{n}.bfd")` used for member n. -/
def memberExt (n : Nat) : List Char :=
  Nat.toDigits 10 n ++ '.' :: ['b', 'f', 'd']

/-- Member-file path used by BField::create (src/bfield.rs:36-39):
`Path::with_extension(Path::file_stem(filename), "{n}.bfd")` — note the stem
is taken WITHOUT its parent directory, so the result is a bare file name. -/
def createMemberPath (P : RPath) (n : Nat) : RPath :=
  ⟨[], withExtension (fileStem P.base) (memberExt n)⟩

/-- Member-file path used by BField::from_file (src/bfield.rs:78-81):
`filename.with_file_name(with_extension(file_stem(filename), "{n}.bfd"))` —
the parent directory of the supplied path is preserved. -/
def fromFileMemberPath (P : RPath) (n : Nat) : RPath :=
  ⟨P.dir, withExtension (fileStem P.base) (memberExt n)⟩

/-! ## Basic structural lemmas -/

theorem bitSub_foldl {f : Nat → Nat → Nat} (hf : ∀ b ix, bitSub b (f b ix)) :
    ∀ (l : List Nat) (b : Nat), bitSub b (l.foldl f b) := by
  intro l
  induction l with
  | nil => intro b; exact bitSub_refl b
  | cons x xs ih => intro b; exact bitSub_trans (hf b x) (ih (f b x))

theorem insert_raw_grow (hash : Key → Nat × Nat) (m : BFieldMember) (key : Key)
    (marker : Nat) : bitSub m.bits (insert_raw hash m key marker).bits := by
  exact bitSub_foldl (fun b ix => bitSub_set_range b _ _ _) _ _

theorem insert_raw_size (hash : Key → Nat × Nat) (m : BFieldMember) (key : Key)
    (marker : Nat) : (insert_raw hash m key marker).size = m.size := rfl

theorem insert_raw_params (hash : Key → Nat × Nat) (m : BFieldMember)
    (key : Key) (marker : Nat) : (insert_raw hash m key marker).params = m.params :=
  rfl

theorem mask_or_insert_grow (hash : Key → Nat × Nat) (m : BFieldMember)
    (key : Key) (value : Nat) :
    bitSub m.bits ((m.mask_or_insert hash key value).1).bits := by
  unfold BFieldMember.mask_or_insert
  dsimp only
  split
  · exact bitSub_refl _
  · split
    · split
      · exact bitSub_refl _
      · exact insert_raw_grow hash m key _
    · exact insert_raw_grow hash m key _

theorem mask_or_insert_size (hash : Key → Nat × Nat) (m : BFieldMember)
    (key : Key) (value : Nat) :
    ((m.mask_or_insert hash key value).1).size = m.size := by
  unfold BFieldMember.mask_or_insert
  dsimp only
  split
  · rfl
  · split
    · split <;> rfl
    · rfl

theorem mask_or_insert_params (hash : Key → Nat × Nat) (m : BFieldMember)
    (key : Key) (value : Nat) :
    ((m.mask_or_insert hash key value).1).params = m.params := by
  unfold BFieldMember.mask_or_insert
  dsimp only
  split
  · rfl
  · split
    · split <;> rfl
    · rfl

/-- A supported mutating operation on a single member. -/
inductive MemberOp where
  | ins (key : Key) (value : Nat)
  | mask (key : Key) (value : Nat)

def applyMemberOp (hash : Key → Nat × Nat) (m : BFieldMember) :
    MemberOp → BFieldMember
  | .ins key value => m.insert hash key value
  | .mask key value => (m.mask_or_insert hash key value).1

def applyMemberOps (hash : Key → Nat × Nat) (ops : List MemberOp)
    (m : BFieldMember) : BFieldMember :=
  ops.foldl (applyMemberOp hash) m

theorem applyMemberOp_grow (hash : Key → Nat × Nat) (m : BFieldMember)
    (op : MemberOp) : bitSub m.bits (applyMemberOp hash m op).bits := by
  cases op with
  | ins key value => exact insert_raw_grow hash m key _
  | mask key value => exact mask_or_insert_grow hash m key value

/-- Claim C7: across any sequence of insert and mask_or_insert calls, the set
of set bits of the member's bit vector only grows, hence its popcount (at any
width) is non-decreasing; no supported operation clears a bit, given that
set_range ORs the supplied pattern into the existing bits (as it does in this
model). -/
theorem member_bits_monotone (hash : Key → Nat × Nat) (ops : List MemberOp)
    (m : BFieldMember) :
    bitSub m.bits (applyMemberOps hash ops m).bits ∧
    ∀ w, popcountW m.bits w ≤ popcountW (applyMemberOps hash ops m).bits w := by
  have hsub : ∀ (l : List MemberOp) (m0 : BFieldMember),
      bitSub m0.bits (applyMemberOps hash l m0).bits := by
    intro l
    induction l with
    | nil => intro m0; exact bitSub_refl _
    | cons op rest ih =>
      intro m0
      exact bitSub_trans (applyMemberOp_grow hash m0 op) (ih _)
  exact ⟨hsub ops m, fun w => popcountW_mono w (hsub ops m)⟩

/-- Claim C8: the i-th marker position is `(h0 + i*h1) mod 2^64` (wrapping
64-bit arithmetic) reduced modulo `size - ν`, and the ν-bit window starting
there lies inside the bit vector whenever `ν < size`. -/
theorem marker_pos_spec (h : Nat × Nat) (i total_size ν : Nat)
    (hν : ν < total_size) :
    marker_pos h i total_size ν = ((h.1 + i * h.2) % 2 ^ 64) % (total_size - ν) ∧
    marker_pos h i total_size ν + ν ≤ total_size := by
  refine ⟨rfl, ?_⟩
  have h1 : marker_pos h i total_size ν < total_size - ν := by
    unfold marker_pos
    exact Nat.mod_lt _ (by omega)
  omega

theorem marker_pos_spec_witness :
    (4 : Nat) < 16 ∧
    (marker_pos (3, 5) 2 16 4 = ((3 + 2 * 5) % 2 ^ 64) % (16 - 4) ∧
      marker_pos (3, 5) 2 16 4 + 4 ≤ 16) :=
  ⟨by decide, marker_pos_spec (3, 5) 2 16 4 (by decide)⟩

/-- Claim C9 (code bug): for base path foo/bar.ext, from_file looks for
member 0 at foo/bar.0.bfd (parent directory preserved via with_file_name),
but create writes it at bar.0.bfd (the parent directory is dropped because
with_extension is applied to the bare file stem) — the two operations
disagree on where the member file lives. -/
theorem create_from_file_paths_disagree :
    fromFileMemberPath ⟨[['f', 'o', 'o']], ['b', 'a', 'r', '.', 'e', 'x', 't']⟩ 0 =
      ⟨[['f', 'o', 'o']], ['b', 'a', 'r', '.', '0', '.', 'b', 'f', 'd']⟩ ∧
    createMemberPath ⟨[['f', 'o', 'o']], ['b', 'a', 'r', '.', 'e', 'x', 't']⟩ 0 =
      ⟨[], ['b', 'a', 'r', '.', '0', '.', 'b', 'f', 'd']⟩ ∧
    createMemberPath ⟨[['f', 'o', 'o']], ['b', 'a', 'r', '.', 'e', 'x', 't']⟩ 0 ≠
      fromFileMemberPath ⟨[['f', 'o', 'o']], ['b', 'a', 'r', '.', 'e', 'x', 't']⟩ 0 :=
  ⟨by decide, by decide, by decide⟩

/-! ## The mask bit-search loop -/

theorem lor_two_pow_of_testBit {x p : Nat} (h : x.testBit p = true) :
    x ||| 2 ^ p = x := by
  apply Nat.eq_of_testBit_eq
  intro i
  rw [Nat.testBit_or, Nat.testBit_two_pow]
  by_cases hip : p = i
  · subst hip
    simp [h]
  · simp [hip]

/-- Every word of popcount `κ < 128` (fitting in 128 bits) has a lowest unset
bit, and it sits at index at most `κ`. -/
theorem exists_lowest_unset {x κ : Nat} (hx : x < 2 ^ 128)
    (hpc : popcountW x 128 = κ) (hκ : κ < 128) :
    ∃ p, p ≤ κ ∧ x.testBit p = false ∧ ∀ j, j < p → x.testBit j = true := by
  have hex : ∃ i, x.testBit i = false := ⟨128, Nat.testBit_lt_two_pow hx⟩
  refine ⟨Nat.find hex, ?_, Nat.find_spec hex, ?_⟩
  · by_contra hgt
    have hall : ∀ j, j < κ + 1 → x.testBit j = true := by
      intro j hj
      have : ¬x.testBit j = false := Nat.find_min hex (show j < Nat.find hex by omega)
      revert this
      cases x.testBit j <;> simp
    have := popcountW_le_of_all_set hall (show κ + 1 ≤ 128 by omega)
    omega
  · intro j hj
    have := Nat.find_min hex hj
    revert this
    cases x.testBit j <;> simp

theorem mask_find_marker_run {existing k p : Nat}
    (hpc : popcountW existing 128 = k)
    (hset : ∀ j, j < p → existing.testBit j = true)
    (hunset : existing.testBit p = false) (hp : p < 128) :
    ∀ d fuel pos, pos + d = p → d + 2 ≤ fuel →
      mask_find_marker existing k fuel pos existing =
        (existing ||| 2 ^ p, p + 1) := by
  intro d
  induction d with
  | zero =>
    intro fuel pos hpos hfuel
    obtain ⟨f, rfl⟩ : ∃ f, fuel = f + 2 := ⟨fuel - 2, by omega⟩
    have hpose : pos = p := by omega
    subst hpose
    show mask_find_marker existing k (f + 1 + 1) pos existing = _
    rw [mask_find_marker]
    rw [if_pos hpc]
    rw [mask_find_marker]
    rw [if_neg]
    rw [popcountW_lor_two_pow hunset hp, hpc]
    omega
  | succ d ih =>
    intro fuel pos hpos hfuel
    obtain ⟨f, rfl⟩ : ∃ f, fuel = f + 1 := ⟨fuel - 1, by omega⟩
    rw [mask_find_marker]
    rw [if_pos hpc]
    rw [lor_two_pow_of_testBit (hset pos (by omega))]
    exact ih f (pos + 1) (by omega) (by omega)

/-- Claim C10: when mask_or_insert reaches the bit-search loop on a merged
marker of popcount exactly κ (with 1 ≤ κ < ν ≤ 128), the loop stops after
p + 1 ≤ κ + 1 iterations at the lowest bit p not set in the existing marker;
the marker it produces is existing OR 2^p, of popcount exactly κ + 1, and
p ≤ κ < ν keeps the extra bit strictly inside the ν-bit marker field. -/
theorem mask_loop_spec (existing κ ν : Nat) (hκ1 : 1 ≤ κ) (hκν : κ < ν)
    (hν : ν ≤ 128) (hex : existing < 2 ^ 128)
    (hpc : popcountW existing 128 = κ) :
    ∃ p, p ≤ κ ∧ p < ν ∧ existing.testBit p = false ∧
      (∀ j, j < p → existing.testBit j = true) ∧
      mask_find_marker existing κ 129 0 existing =
        (existing ||| 2 ^ p, p + 1) ∧
      popcountW (existing ||| 2 ^ p) 128 = κ + 1 ∧ p + 1 ≤ κ + 1 := by
  obtain ⟨p, hpκ, hunset, hset⟩ := exists_lowest_unset hex hpc (by omega)
  have hp128 : p < 128 := by omega
  refine ⟨p, hpκ, by omega, hunset, hset, ?_, ?_, by omega⟩
  · exact mask_find_marker_run hpc hset hunset hp128 p 129 0 (by omega) (by omega)
  · rw [popcountW_lor_two_pow hunset hp128, hpc]

theorem mask_loop_spec_witness :
    (1 ≤ 2 ∧ 2 < 4 ∧ 4 ≤ 128 ∧ (5 : Nat) < 2 ^ 128 ∧ popcountW 5 128 = 2) ∧
    (∃ p, p ≤ 2 ∧ p < 4 ∧ (5 : Nat).testBit p = false ∧
      (∀ j, j < p → (5 : Nat).testBit j = true) ∧
      mask_find_marker 5 2 129 0 5 = (5 ||| 2 ^ p, p + 1) ∧
      popcountW (5 ||| 2 ^ p) 128 = 2 + 1 ∧ p + 1 ≤ 2 + 1) :=
  ⟨⟨by omega, by omega, by omega, by norm_num, by decide⟩,
    mask_loop_spec 5 2 4 (by omega) (by omega) (by omega) (by norm_num) (by decide)⟩

/-! ## Window reads and writes: the marker stays installed -/

theorem bitSub_land_left (a b : Nat) : bitSub (a &&& b) a := by
  intro i h
  rw [Nat.testBit_and] at h
  exact (Bool.and_eq_true_iff.mp h).1

theorem bitSub_land_right (a b : Nat) : bitSub (a &&& b) b := by
  intro i h
  rw [Nat.testBit_and] at h
  exact (Bool.and_eq_true_iff.mp h).2

theorem lor_lt_two_pow {a b w : Nat} (ha : a < 2 ^ w) (hb : b < 2 ^ w) :
    a ||| b < 2 ^ w := by
  apply Nat.lt_pow_two_of_testBit
  intro i hi
  rw [Nat.testBit_or]
  rw [Nat.testBit_lt_two_pow (lt_of_lt_of_le ha (Nat.pow_le_pow_right (by omega) hi))]
  rw [Nat.testBit_lt_two_pow (lt_of_lt_of_le hb (Nat.pow_le_pow_right (by omega) hi))]
  rfl

theorem get_range_lt (bits lo hi : Nat) : get_range bits lo hi < 2 ^ (hi - lo) :=
  Nat.mod_lt _ (Nat.pos_pow_of_pos _ (by omega))

theorem ones_land {x w : Nat} (hx : x < 2 ^ w) : (2 ^ w - 1) &&& x = x := by
  apply Nat.eq_of_testBit_eq
  intro i
  rw [Nat.testBit_and, Nat.testBit_two_pow_sub_one]
  by_cases hi : i < w
  · simp [hi]
  · rw [Nat.testBit_lt_two_pow
      (lt_of_lt_of_le hx (Nat.pow_le_pow_right (by omega) (by omega)))]
    simp [hi]

theorem eq_zero_of_popcountW {x w : Nat} (hx : x < 2 ^ w)
    (hpc : popcountW x w = 0) : x = 0 := by
  have h0 : popcountW 0 w ≤ popcountW x w := by
    rw [hpc]
    have : popcountW 0 w = 0 := by
      rw [popcountW]
      apply Finset.card_eq_zero.mpr
      apply Finset.filter_false_of_mem
      intro i _
      simp [Nat.zero_testBit]
    omega
  exact (eq_of_bitSub_of_popcountW_le (fun i h => by simp [Nat.zero_testBit] at h)
    (by omega) (Nat.pos_pow_of_pos _ (by omega)) hx).symm

/-- The bits written by insert_raw, position by position. -/
theorem foldl_set_range_testBit (P : Nat → Nat) (mw a : Nat) :
    ∀ (l : List Nat) (b : Nat) (i : Nat),
      (l.foldl (fun b ix => set_range b (P ix) (P ix + mw) a) b).testBit i =
        (b.testBit i || l.any (fun ix => ((a % 2 ^ mw) <<< P ix).testBit i)) := by
  intro l
  induction l with
  | nil => intro b i; simp
  | cons x xs ih =>
    intro b i
    rw [List.foldl_cons, ih]
    rw [show set_range b (P x) (P x + mw) a =
      b ||| ((a % 2 ^ mw) <<< P x) from by rw [set_range, Nat.add_sub_cancel_left]]
    rw [Nat.testBit_or, List.any_cons, Bool.or_assoc]

theorem insert_raw_testBit (hash : Key → Nat × Nat) (m : BFieldMember)
    (key : Key) (marker i : Nat) :
    (insert_raw hash m key marker).bits.testBit i =
      (m.bits.testBit i ||
        (List.range m.params.n_hashes).any
          (fun ix => ((marker % 2 ^ m.params.marker_width) <<<
            marker_pos (hash key) ix m.size m.params.marker_width).testBit i)) := by
  exact foldl_set_range_testBit
    (fun ix => marker_pos (hash key) ix m.size m.params.marker_width)
    m.params.marker_width marker (List.range m.params.n_hashes) m.bits i

/-- The marker (below the window width) is contained in every window that
insert_raw wrote. -/
theorem insert_raw_installs (hash : Key → Nat × Nat) (m : BFieldMember)
    (key : Key) (marker : Nat)
    (hlt : marker < 2 ^ m.params.marker_width) :
    ∀ ix, ix < m.params.n_hashes →
      bitSub marker (get_range (insert_raw hash m key marker).bits
        (marker_pos (hash key) ix m.size m.params.marker_width)
        (marker_pos (hash key) ix m.size m.params.marker_width +
          m.params.marker_width)) := by
  intro ix hix i hbit
  have himw : i < m.params.marker_width := by
    by_contra hc
    rw [Nat.testBit_lt_two_pow
      (lt_of_lt_of_le hlt (Nat.pow_le_pow_right (by omega) (by omega)))] at hbit
    exact Bool.false_ne_true hbit
  rw [testBit_get_range]
  rw [Nat.add_sub_cancel_left]
  refine Bool.and_eq_true_iff.mpr ⟨by simpa using himw, ?_⟩
  rw [insert_raw_testBit]
  apply Bool.or_eq_true_iff.mpr
  right
  apply List.any_eq_true.mpr
  refine ⟨ix, List.mem_range.mpr hix, ?_⟩
  rw [Nat.testBit_shiftLeft]
  refine Bool.and_eq_true_iff.mpr ⟨by simp, ?_⟩
  rw [Nat.add_sub_cancel_left, Nat.mod_eq_of_lt hlt]
  exact hbit

/-- A marker is installed at a key in a member when every one of the key's
windows contains it. -/
def installedAt (hash : Key → Nat × Nat) (m : BFieldMember) (key : Key)
    (marker : Nat) : Prop :=
  ∀ ix, ix < m.params.n_hashes →
    bitSub marker (get_range m.bits
      (marker_pos (hash key) ix m.size m.params.marker_width)
      (marker_pos (hash key) ix m.size m.params.marker_width +
        m.params.marker_width))

theorem insert_raw_installedAt (hash : Key → Nat × Nat) (m : BFieldMember)
    (key : Key) (marker : Nat)
    (hlt : marker < 2 ^ m.params.marker_width) :
    installedAt hash (insert_raw hash m key marker) key marker := by
  intro ix hix
  exact insert_raw_installs hash m key marker hlt ix hix

/-- installedAt is preserved by any evolution that keeps size and params and
only adds bits. -/
theorem installedAt_mono {hash : Key → Nat × Nat} {m m' : BFieldMember}
    {key : Key} {marker : Nat} (hsz : m'.size = m.size)
    (hp : m'.params = m.params) (hb : bitSub m.bits m'.bits)
    (hi : installedAt hash m key marker) : installedAt hash m' key marker := by
  intro ix hix
  rw [hsz, hp]
  rw [hp] at hix
  exact bitSub_trans (hi ix hix) (get_range_mono _ _ hb)

/-! ## get_raw: the merged marker contains every installed marker -/

theorem get_raw_go_lt (bits mw k : Nat) :
    ∀ (poss : List Nat) (merged : Nat), merged < 2 ^ 128 →
      get_raw_go bits mw k merged poss < 2 ^ 128 := by
  intro poss
  induction poss with
  | nil => intro merged h; exact h
  | cons p rest ih =>
    intro merged h
    rw [get_raw_go]
    split
    · exact Nat.pos_pow_of_pos _ (by omega)
    · exact ih _ (lt_two_pow_of_bitSub (bitSub_land_left _ _) h)

theorem get_raw_go_sub {bits mw k marker : Nat}
    (hpc : k ≤ popcountW marker 128) :
    ∀ (poss : List Nat) (merged : Nat), bitSub marker merged →
      (∀ pos ∈ poss, bitSub marker (get_range bits pos (pos + mw))) →
      bitSub marker (get_raw_go bits mw k merged poss) := by
  intro poss
  induction poss with
  | nil => intro merged hm _; exact hm
  | cons p rest ih =>
    intro merged hm hwin
    rw [get_raw_go]
    have hm2 : bitSub marker (merged &&& get_range bits p (p + mw)) :=
      bitSub_land hm (hwin p (List.mem_cons_self p rest))
    rw [if_neg]
    · exact ih _ hm2 (fun q hq => hwin q (List.mem_cons_of_mem _ hq))
    · have := popcountW_mono 128 hm2
      omega

theorem get_raw_lt (hash : Key → Nat × Nat) (m : BFieldMember) (key : Key)
    (k : Nat) : get_raw hash m key k < 2 ^ 128 := by
  exact get_raw_go_lt _ _ _ _ _ (by omega)

theorem get_raw_sub (hash : Key → Nat × Nat) (m : BFieldMember) (key : Key)
    {k marker : Nat} (hinst : installedAt hash m key marker)
    (hk : k ≤ popcountW marker 128) (hmk : marker < 2 ^ 128) :
    bitSub marker (get_raw hash m key k) := by
  apply get_raw_go_sub hk
  · exact bitSub_of_lt_two_pow 128 hmk
  · intro pos hpos
    rcases List.mem_map.mp hpos with ⟨ix, hix, rfl⟩
    exact hinst ix (List.mem_range.mp hix)

/-- An installed marker of popcount exactly κ forces the member's verdict to
be either the decoded marker itself or indeterminate — never `none` and never
a different decodable marker. -/
theorem get_of_installedAt (hash : Key → Nat × Nat) (m : BFieldMember)
    (key : Key) {marker : Nat} (hinst : installedAt hash m key marker)
    (hpc : popcountW marker 128 = m.params.n_marker_bits)
    (hmk : marker < 2 ^ 128) :
    m.get hash key = .some (unrank marker % 2 ^ 32) ∨
    m.get hash key = .indeterminate := by
  have hsub : bitSub marker (get_raw hash m key m.params.n_marker_bits) :=
    get_raw_sub hash m key hinst (by omega) hmk
  have hge := popcountW_mono 128 hsub
  rw [BFieldMember.get]
  by_cases hgt : popcountW (get_raw hash m key m.params.n_marker_bits) 128 >
      m.params.n_marker_bits
  · right
    rw [if_pos hgt]
  · left
    have heq : popcountW (get_raw hash m key m.params.n_marker_bits) 128 =
        m.params.n_marker_bits := by omega
    rw [if_neg hgt, if_pos heq]
    have : marker = get_raw hash m key m.params.n_marker_bits :=
      eq_of_bitSub_of_popcountW_le hsub (by omega) hmk (get_raw_lt hash m key _)
    rw [← this]

/-! ## Exact window contents after a single insert into a fresh member -/

theorem land_self (n : Nat) : n &&& n = n := by
  apply Nat.eq_of_testBit_eq
  intro i
  rw [Nat.testBit_and, Bool.and_self]

theorem get_raw_go_const (bits mw k mkv : Nat) (hpc2 : popcountW mkv 128 = k) :
    ∀ poss, (∀ pos ∈ poss, get_range bits pos (pos + mw) = mkv) →
      get_raw_go bits mw k mkv poss = mkv := by
  intro poss
  induction poss with
  | nil => intro _; rfl
  | cons p rest ih =>
    intro hwin
    rw [get_raw_go]
    rw [hwin p (List.mem_cons_self p rest), land_self]
    rw [if_neg (by omega)]
    exact ih (fun q hq => hwin q (List.mem_cons_of_mem _ hq))

theorem get_raw_go_ones_windows (bits mw k mkv : Nat) (hmklt : mkv < 2 ^ 128)
    (hpc2 : popcountW mkv 128 = k) :
    ∀ poss, poss ≠ [] → (∀ pos ∈ poss, get_range bits pos (pos + mw) = mkv) →
      get_raw_go bits mw k (2 ^ 128 - 1) poss = mkv := by
  intro poss hne hwin
  cases poss with
  | nil => exact absurd rfl hne
  | cons p rest =>
    rw [get_raw_go]
    rw [hwin p (List.mem_cons_self p rest), ones_land hmklt]
    rw [if_neg (by omega)]
    exact get_raw_go_const bits mw k mkv hpc2 rest
      (fun q hq => hwin q (List.mem_cons_of_mem _ hq))

/-- After a single insert_raw into a fresh member whose windows are pairwise
equal or disjoint, every window reads back exactly the marker. -/
theorem fresh_insert_window_exact (hash : Key → Nat × Nat) (m : BFieldMember)
    (key : Key) (marker : Nat) (hfresh : m.bits = 0)
    (hlt : marker < 2 ^ m.params.marker_width)
    (hsep : ∀ ix jx, ix < m.params.n_hashes → jx < m.params.n_hashes →
      marker_pos (hash key) ix m.size m.params.marker_width =
        marker_pos (hash key) jx m.size m.params.marker_width ∨
      marker_pos (hash key) ix m.size m.params.marker_width +
          m.params.marker_width ≤
        marker_pos (hash key) jx m.size m.params.marker_width ∨
      marker_pos (hash key) jx m.size m.params.marker_width +
          m.params.marker_width ≤
        marker_pos (hash key) ix m.size m.params.marker_width) :
    ∀ jx, jx < m.params.n_hashes →
      get_range (insert_raw hash m key marker).bits
        (marker_pos (hash key) jx m.size m.params.marker_width)
        (marker_pos (hash key) jx m.size m.params.marker_width +
          m.params.marker_width) = marker := by
  intro jx hjx
  apply Nat.eq_of_testBit_eq
  intro i
  rw [testBit_get_range, Nat.add_sub_cancel_left]
  by_cases himw : i < m.params.marker_width
  · rw [insert_raw_testBit, hfresh, Nat.zero_testBit, Bool.false_or]
    cases hmb : marker.testBit i with
    | true =>
      apply Bool.and_eq_true_iff.mpr
      refine ⟨by simpa using himw, ?_⟩
      apply List.any_eq_true.mpr
      refine ⟨jx, List.mem_range.mpr hjx, ?_⟩
      rw [Nat.testBit_shiftLeft]
      refine Bool.and_eq_true_iff.mpr ⟨by simp, ?_⟩
      rw [Nat.add_sub_cancel_left, Nat.mod_eq_of_lt hlt]
      exact hmb
    | false =>
      rw [show (decide (i < m.params.marker_width) &&
          (List.range m.params.n_hashes).any
            (fun ix => ((marker % 2 ^ m.params.marker_width) <<<
              marker_pos (hash key) ix m.size m.params.marker_width).testBit
              (marker_pos (hash key) jx m.size m.params.marker_width + i))) = false
        from ?_]
      rw [Bool.and_eq_false_iff]
      right
      apply List.any_eq_false.mpr
      intro ix hix
      rw [Nat.mod_eq_of_lt hlt]
      intro hcontra
      rw [Nat.testBit_shiftLeft] at hcontra
      rcases Bool.and_eq_true_iff.mp hcontra with ⟨hle, hbit⟩
      simp only [decide_eq_true_eq] at hle
      have hd : marker_pos (hash key) jx m.size m.params.marker_width + i -
          marker_pos (hash key) ix m.size m.params.marker_width <
          m.params.marker_width := by
        by_contra hc
        rw [Nat.testBit_lt_two_pow
          (lt_of_lt_of_le hlt (Nat.pow_le_pow_right (by omega) (by omega)))] at hbit
        exact Bool.false_ne_true hbit
      rcases hsep ix jx (List.mem_range.mp hix) hjx with hcase | hcase | hcase
      · rw [hcase] at hle hbit
        rw [Nat.add_sub_cancel_left] at hbit
        rw [hbit] at hmb
        exact Bool.noConfusion hmb
      · omega
      · omega
  · have hmf : marker.testBit i = false :=
      Nat.testBit_lt_two_pow
        (lt_of_lt_of_le hlt (Nat.pow_le_pow_right (by omega) (by omega)))
    rw [hmf]
    simp [himw]

/-- The merged marker of get_raw when every window reads exactly `mkv`. -/
theorem get_raw_eq_of_windows (hash : Key → Nat × Nat) (m1 : BFieldMember)
    (key : Key) {k mkv : Nat} (hk1 : 1 ≤ m1.params.n_hashes)
    (hmklt : mkv < 2 ^ 128) (hpc2 : popcountW mkv 128 = k)
    (hwin : ∀ ix, ix < m1.params.n_hashes →
      get_range m1.bits
        (marker_pos (hash key) ix m1.size m1.params.marker_width)
        (marker_pos (hash key) ix m1.size m1.params.marker_width +
          m1.params.marker_width) = mkv) :
    get_raw hash m1 key k = mkv := by
  show align_bits (get_raw_go m1.bits m1.params.marker_width k (2 ^ 128 - 1)
    ((List.range m1.params.n_hashes).map
      (fun ix => marker_pos (hash key) ix m1.size m1.params.marker_width)))
    m1.params.marker_width = mkv
  rw [align_bits]
  apply get_raw_go_ones_windows _ _ _ _ hmklt hpc2
  · intro hnil
    rcases List.map_eq_nil_iff.mp hnil with h
    rw [List.range_eq_nil] at h
    omega
  · intro pos hpos
    rcases List.mem_map.mp hpos with ⟨ix, hix, rfl⟩
    exact hwin ix (List.mem_range.mp hix)

/-- The hash used by the C3 counterexample: key (the byte string 01) maps to
(h0, h1) = (0, 1), so with two hashes and size 16, width 4 the marker
positions are 0 and 1 — overlapping windows. -/
def cexHash : Key → Nat × Nat := fun key =>
  match key with
  | [1] => (0, 1)
  | _ => (0, 0)

/-- Claim C3 is false as stated: inserting value 1 (a valid value, since
C(4,2) = 6 and unrank (rank 1 2) = 1) into a fresh member of size 16 with
n_hashes = 2, marker_width = 4, n_marker_bits = 2 under a hash that places
the two windows at overlapping positions 0 and 1 yields an Indeterminate
lookup, not Some 1. -/
theorem single_insert_counterexample :
    unrank (rank 1 2) = 1 ∧ popcountW (rank 1 2) 128 = 2 ∧
    (BFieldMember.insert cexHash ⟨0, 16, ⟨2, 4, 2⟩⟩ [1] 1).get cexHash [1] =
      .indeterminate ∧
    (BFieldMember.insert cexHash ⟨0, 16, ⟨2, 4, 2⟩⟩ [1] 1).get cexHash [1] ≠
      .some 1 := by
  refine ⟨by decide, by decide, by decide, by decide⟩

/-- Claim C3, amended: for a fresh member, a valid value v, and a key whose
marker windows are pairwise identical or disjoint (the condition the
counterexample shows is necessary), a single insert makes get return
Some v. -/
theorem single_insert_get_some (hash : Key → Nat × Nat) (m : BFieldMember)
    (key : Key) (v : Nat) (hfresh : m.bits = 0)
    (hk1 : 1 ≤ m.params.n_hashes)
    (hpc : popcountW (rank v m.params.n_marker_bits) 128 =
      m.params.n_marker_bits)
    (hlt : rank v m.params.n_marker_bits < 2 ^ m.params.marker_width)
    (hmw : m.params.marker_width ≤ 128)
    (hun : unrank (rank v m.params.n_marker_bits) = v) (hv : v < 2 ^ 32)
    (hsep : ∀ ix jx, ix < m.params.n_hashes → jx < m.params.n_hashes →
      marker_pos (hash key) ix m.size m.params.marker_width =
        marker_pos (hash key) jx m.size m.params.marker_width ∨
      marker_pos (hash key) ix m.size m.params.marker_width +
          m.params.marker_width ≤
        marker_pos (hash key) jx m.size m.params.marker_width ∨
      marker_pos (hash key) jx m.size m.params.marker_width +
          m.params.marker_width ≤
        marker_pos (hash key) ix m.size m.params.marker_width) :
    (m.insert hash key v).get hash key = .some v := by
  have hwin := fresh_insert_window_exact hash m key
    (rank v m.params.n_marker_bits) hfresh hlt hsep
  have hmk128 : rank v m.params.n_marker_bits < 2 ^ 128 :=
    lt_of_lt_of_le hlt (Nat.pow_le_pow_right (by omega) hmw)
  have hgr : get_raw hash (m.insert hash key v) key
      (m.insert hash key v).params.n_marker_bits =
      rank v m.params.n_marker_bits := by
    apply get_raw_eq_of_windows hash (m.insert hash key v) key
      (show 1 ≤ (m.insert hash key v).params.n_hashes from hk1)
      hmk128 hpc
    intro ix hix
    exact hwin ix hix
  rw [BFieldMember.get]
  have hparams : (m.insert hash key v).params = m.params := rfl
  rw [hparams] at hgr ⊢
  rw [hgr, hpc]
  rw [if_neg (by omega), if_pos rfl]
  rw [hun, Nat.mod_eq_of_lt hv]

theorem single_insert_get_some_witness :
    ((⟨0, 24, ⟨2, 4, 2⟩⟩ : BFieldMember).bits = 0 ∧
      unrank (rank 1 2) = 1 ∧ (1 : Nat) < 2 ^ 32 ∧
      (∀ ix jx, ix < 2 → jx < 2 →
        marker_pos ((0, 8) : Nat × Nat) ix 24 4 =
          marker_pos ((0, 8) : Nat × Nat) jx 24 4 ∨
        marker_pos ((0, 8) : Nat × Nat) ix 24 4 + 4 ≤
          marker_pos ((0, 8) : Nat × Nat) jx 24 4 ∨
        marker_pos ((0, 8) : Nat × Nat) jx 24 4 + 4 ≤
          marker_pos ((0, 8) : Nat × Nat) ix 24 4)) ∧
    (BFieldMember.insert (fun _ => (0, 8)) ⟨0, 24, ⟨2, 4, 2⟩⟩ [0] 1).get
      (fun _ => (0, 8)) [0] = .some 1 :=
  ⟨⟨rfl, by decide, by norm_num,
      by intro ix jx hix hjx; interval_cases ix <;> interval_cases jx <;> decide⟩,
    single_insert_get_some (fun _ => (0, 8)) ⟨0, 24, ⟨2, 4, 2⟩⟩ [0] 1 rfl
      (by decide) (by decide) (by decide) (by decide) (by decide)
      (by norm_num)
      (by intro ix jx hix hjx; interval_cases ix <;> interval_cases jx <;> decide)⟩

/-! ## Width bounds on get_raw, and the two no-write branches of
mask_or_insert -/

theorem get_raw_go_lt_width (bits mw k : Nat) :
    ∀ (poss : List Nat) (merged : Nat), merged < 2 ^ mw →
      get_raw_go bits mw k merged poss < 2 ^ mw := by
  intro poss
  induction poss with
  | nil => intro merged h; exact h
  | cons p rest ih =>
    intro merged h
    rw [get_raw_go]
    split
    · exact Nat.pos_pow_of_pos _ (by omega)
    · exact ih _ (lt_two_pow_of_bitSub (bitSub_land_left _ _) h)

theorem get_raw_lt_width (hash : Key → Nat × Nat) (m : BFieldMember)
    (key : Key) (k : Nat) (hk1 : 1 ≤ m.params.n_hashes) :
    get_raw hash m key k < 2 ^ m.params.marker_width := by
  show align_bits (get_raw_go m.bits m.params.marker_width k (2 ^ 128 - 1)
    ((List.range m.params.n_hashes).map
      (fun ix => marker_pos (hash key) ix m.size m.params.marker_width)))
    m.params.marker_width < 2 ^ m.params.marker_width
  rw [align_bits]
  obtain ⟨n, hn⟩ : ∃ n, m.params.n_hashes = n + 1 :=
    ⟨m.params.n_hashes - 1, by omega⟩
  rw [hn, List.range_succ_eq_map, List.map_cons]
  rw [get_raw_go]
  split
  · exact Nat.pos_pow_of_pos _ (by omega)
  · apply get_raw_go_lt_width
    apply lt_two_pow_of_bitSub (bitSub_land_right _ _)
    have := get_range_lt m.bits (marker_pos (hash key) 0 m.size m.params.marker_width)
      (marker_pos (hash key) 0 m.size m.params.marker_width + m.params.marker_width)
    rw [Nat.add_sub_cancel_left] at this
    exact this

theorem get_raw_of_no_hashes (hash : Key → Nat × Nat) (m : BFieldMember)
    (key : Key) (k : Nat) (h0 : m.params.n_hashes = 0) :
    get_raw hash m key k = 2 ^ 128 - 1 := by
  show align_bits (get_raw_go m.bits m.params.marker_width k (2 ^ 128 - 1)
    ((List.range m.params.n_hashes).map
      (fun ix => marker_pos (hash key) ix m.size m.params.marker_width)))
    m.params.marker_width = 2 ^ 128 - 1
  rw [h0]
  rfl

theorem mask_or_insert_of_gt (hash : Key → Nat × Nat) (m : BFieldMember)
    (key : Key) (w : Nat)
    (hgt : popcountW (get_raw hash m key m.params.n_marker_bits) 128 >
      m.params.n_marker_bits) :
    m.mask_or_insert hash key w = (m, false) := by
  rw [BFieldMember.mask_or_insert, if_pos hgt]

theorem get_indeterminate_of_gt (hash : Key → Nat × Nat) (m : BFieldMember)
    (key : Key)
    (hgt : popcountW (get_raw hash m key m.params.n_marker_bits) 128 >
      m.params.n_marker_bits) :
    m.get hash key = .indeterminate := by
  rw [BFieldMember.get, if_pos hgt]

/-- After insert_raw of a marker wider in popcount than κ, the member's
merged marker has popcount above κ. -/
theorem get_raw_popcount_gt (hash : Key → Nat × Nat) (m : BFieldMember)
    (key : Key) {marker : Nat}
    (hinst : installedAt hash m key marker) (hmk : marker < 2 ^ 128)
    (hpcgt : m.params.n_marker_bits < popcountW marker 128) :
    popcountW (get_raw hash m key m.params.n_marker_bits) 128 >
      m.params.n_marker_bits := by
  have hsub : bitSub marker (get_raw hash m key m.params.n_marker_bits) :=
    get_raw_sub hash m key hinst (by omega) hmk
  have := popcountW_mono 128 hsub
  omega

theorem mask_or_insert_eq_self (hash : Key → Nat × Nat) (m : BFieldMember)
    (key : Key) (w : Nat)
    (heq : popcountW (get_raw hash m key m.params.n_marker_bits) 128 =
      m.params.n_marker_bits)
    (heqm : get_raw hash m key m.params.n_marker_bits =
      rank w m.params.n_marker_bits) :
    m.mask_or_insert hash key w = (m, true) := by
  have hngt : ¬(popcountW (get_raw hash m key m.params.n_marker_bits) 128 >
      m.params.n_marker_bits) := by omega
  rw [BFieldMember.mask_or_insert, if_neg hngt, if_pos heq, if_pos heqm]

theorem mask_or_insert_mask_branch (hash : Key → Nat × Nat) (m : BFieldMember)
    (key : Key) (w : Nat)
    (heq : popcountW (get_raw hash m key m.params.n_marker_bits) 128 =
      m.params.n_marker_bits)
    (hne2 : get_raw hash m key m.params.n_marker_bits ≠
      rank w m.params.n_marker_bits) :
    m.mask_or_insert hash key w =
      (insert_raw hash m key
        (mask_find_marker (get_raw hash m key m.params.n_marker_bits)
          m.params.n_marker_bits 129 0
          (get_raw hash m key m.params.n_marker_bits)).1, false) := by
  have hngt : ¬(popcountW (get_raw hash m key m.params.n_marker_bits) 128 >
      m.params.n_marker_bits) := by omega
  rw [BFieldMember.mask_or_insert, if_neg hngt, if_pos heq, if_neg hne2]

theorem mask_or_insert_lt_branch (hash : Key → Nat × Nat) (m : BFieldMember)
    (key : Key) (w : Nat)
    (hltpc : popcountW (get_raw hash m key m.params.n_marker_bits) 128 <
      m.params.n_marker_bits) :
    m.mask_or_insert hash key w =
      (insert_raw hash m key (rank w m.params.n_marker_bits), true) := by
  have hngt : ¬(popcountW (get_raw hash m key m.params.n_marker_bits) 128 >
      m.params.n_marker_bits) := by omega
  have hneq : ¬(popcountW (get_raw hash m key m.params.n_marker_bits) 128 =
      m.params.n_marker_bits) := by omega
  rw [BFieldMember.mask_or_insert, if_neg hngt, if_neg hneq]

/-- Claim C4: after insert(key, v), calling mask_or_insert(key, v') with a
valid value v' ≠ v returns false and leaves get(key) = Indeterminate, and
every subsequent mask_or_insert(key, v'') also returns false, changes
nothing, and leaves get(key) Indeterminate. -/
theorem mask_after_insert_indeterminate (hash : Key → Nat × Nat)
    (m : BFieldMember) (key : Key) (v v' : Nat)
    (hmw : m.params.marker_width ≤ 128)
    (hκν : m.params.n_marker_bits < m.params.marker_width)
    (hpc : popcountW (rank v m.params.n_marker_bits) 128 =
      m.params.n_marker_bits)
    (hlt : rank v m.params.n_marker_bits < 2 ^ m.params.marker_width)
    (hpc2 : popcountW (rank v' m.params.n_marker_bits) 128 =
      m.params.n_marker_bits)
    (hlt2 : rank v' m.params.n_marker_bits < 2 ^ m.params.marker_width)
    (hun : unrank (rank v m.params.n_marker_bits) = v)
    (hun2 : unrank (rank v' m.params.n_marker_bits) = v')
    (hne : v ≠ v') :
    ((m.insert hash key v).mask_or_insert hash key v').2 = false ∧
    (((m.insert hash key v).mask_or_insert hash key v').1).get hash key =
      .indeterminate ∧
    ∀ v'',
      ((((m.insert hash key v).mask_or_insert hash key v').1).mask_or_insert
        hash key v'').2 = false ∧
      ((((m.insert hash key v).mask_or_insert hash key v').1).mask_or_insert
        hash key v'').1 = ((m.insert hash key v).mask_or_insert hash key v').1 ∧
      (((((m.insert hash key v).mask_or_insert hash key v').1).mask_or_insert
        hash key v'').1).get hash key = .indeterminate := by
  have hmk128 : rank v m.params.n_marker_bits < 2 ^ 128 :=
    lt_of_lt_of_le hlt (Nat.pow_le_pow_right (by omega) hmw)
  have hinst1 : installedAt hash (m.insert hash key v) key
      (rank v m.params.n_marker_bits) :=
    insert_raw_installedAt hash m key _ hlt
  have hsubE : bitSub (rank v m.params.n_marker_bits)
      (get_raw hash (m.insert hash key v) key
        (m.insert hash key v).params.n_marker_bits) :=
    get_raw_sub hash (m.insert hash key v) key hinst1
      (Nat.le_of_eq hpc.symm) hmk128
  have hgeE : (m.insert hash key v).params.n_marker_bits ≤
      popcountW (get_raw hash (m.insert hash key v) key
        (m.insert hash key v).params.n_marker_bits) 128 := by
    have h2 := popcountW_mono 128 hsubE
    exact le_trans (Nat.le_of_eq hpc.symm) h2
  by_cases hgt : popcountW (get_raw hash (m.insert hash key v) key
      (m.insert hash key v).params.n_marker_bits) 128 >
      (m.insert hash key v).params.n_marker_bits
  · have hmask1 : (m.insert hash key v).mask_or_insert hash key v' =
        (m.insert hash key v, false) :=
      mask_or_insert_of_gt hash (m.insert hash key v) key v' hgt
    have hind : (m.insert hash key v).get hash key = .indeterminate :=
      get_indeterminate_of_gt hash (m.insert hash key v) key hgt
    rw [hmask1]
    refine ⟨rfl, hind, fun v2 => ?_⟩
    have hmask2 : (m.insert hash key v).mask_or_insert hash key v2 =
        (m.insert hash key v, false) :=
      mask_or_insert_of_gt hash (m.insert hash key v) key v2 hgt
    refine ⟨?_, ?_, ?_⟩
    · show ((m.insert hash key v).mask_or_insert hash key v2).2 = false
      rw [hmask2]
    · show ((m.insert hash key v).mask_or_insert hash key v2).1 =
        (m.insert hash key v, false).1
      rw [hmask2]
    · show (((m.insert hash key v).mask_or_insert hash key v2).1).get hash key =
        .indeterminate
      rw [hmask2]
      exact hind
  · have heqE : popcountW (get_raw hash (m.insert hash key v) key
        (m.insert hash key v).params.n_marker_bits) 128 =
        (m.insert hash key v).params.n_marker_bits := by omega
    have hEeq : rank v m.params.n_marker_bits =
        get_raw hash (m.insert hash key v) key
          (m.insert hash key v).params.n_marker_bits :=
      eq_of_bitSub_of_popcountW_le hsubE
        (le_trans (Nat.le_of_eq heqE) (Nat.le_of_eq hpc.symm))
        hmk128 (get_raw_lt hash _ key _)
    have hκ1 : 1 ≤ (m.insert hash key v).params.n_marker_bits := by
      by_contra hc
      have h0 : (m.insert hash key v).params.n_marker_bits = 0 := by omega
      have h0m : m.params.n_marker_bits = 0 := h0
      apply hne
      rw [← hun, ← hun2]
      rw [eq_zero_of_popcountW hmk128 (by rw [hpc, h0m])]
      rw [eq_zero_of_popcountW
        (lt_of_lt_of_le hlt2 (Nat.pow_le_pow_right (by omega) hmw))
        (by rw [hpc2, h0m])]
    have hEne : get_raw hash (m.insert hash key v) key
        (m.insert hash key v).params.n_marker_bits ≠
        rank v' (m.insert hash key v).params.n_marker_bits := by
      intro hcon
      apply hne
      rw [← hun, ← hun2]
      rw [hEeq]
      rw [hcon]
      rfl
    obtain ⟨p, hpκ, hpν, hunset, hlow, hrun, hpcnew, hiter⟩ :=
      mask_loop_spec
        (get_raw hash (m.insert hash key v) key
          (m.insert hash key v).params.n_marker_bits)
        (m.insert hash key v).params.n_marker_bits
        (m.insert hash key v).params.marker_width
        hκ1 hκν hmw (get_raw_lt hash _ key _) heqE
    have hmaskeq := mask_or_insert_mask_branch hash (m.insert hash key v) key v'
      heqE hEne
    rw [hrun] at hmaskeq
    have hnmlt : get_raw hash (m.insert hash key v) key
        (m.insert hash key v).params.n_marker_bits ||| 2 ^ p <
        2 ^ (m.insert hash key v).params.marker_width := by
      apply lor_lt_two_pow
      · rw [← hEeq]
        exact hlt
      · exact Nat.pow_lt_pow_right (by omega) hpν
    have hinst2 : installedAt hash
        (insert_raw hash (m.insert hash key v) key
          (get_raw hash (m.insert hash key v) key
            (m.insert hash key v).params.n_marker_bits ||| 2 ^ p)) key
        (get_raw hash (m.insert hash key v) key
          (m.insert hash key v).params.n_marker_bits ||| 2 ^ p) :=
      insert_raw_installedAt hash (m.insert hash key v) key _ hnmlt
    have hgt2 : popcountW (get_raw hash
        (insert_raw hash (m.insert hash key v) key
          (get_raw hash (m.insert hash key v) key
            (m.insert hash key v).params.n_marker_bits ||| 2 ^ p)) key
        (insert_raw hash (m.insert hash key v) key
          (get_raw hash (m.insert hash key v) key
            (m.insert hash key v).params.n_marker_bits |||
              2 ^ p)).params.n_marker_bits) 128 >
        (insert_raw hash (m.insert hash key v) key
          (get_raw hash (m.insert hash key v) key
            (m.insert hash key v).params.n_marker_bits |||
              2 ^ p)).params.n_marker_bits := by
      apply get_raw_popcount_gt hash _ key hinst2
        (lt_of_lt_of_le hnmlt (Nat.pow_le_pow_right (by omega) hmw))
      rw [hpcnew]
      show (m.insert hash key v).params.n_marker_bits <
        (m.insert hash key v).params.n_marker_bits + 1
      omega
    rw [hmaskeq]
    refine ⟨rfl, get_indeterminate_of_gt hash _ key hgt2, fun v2 => ?_⟩
    have hmask2 := mask_or_insert_of_gt hash
      (insert_raw hash (m.insert hash key v) key
        (get_raw hash (m.insert hash key v) key
          (m.insert hash key v).params.n_marker_bits ||| 2 ^ p)) key v2 hgt2
    refine ⟨?_, ?_, ?_⟩
    · show ((insert_raw hash (m.insert hash key v) key
        (get_raw hash (m.insert hash key v) key
          (m.insert hash key v).params.n_marker_bits |||
            2 ^ p)).mask_or_insert hash key v2).2 = false
      rw [hmask2]
    · show ((insert_raw hash (m.insert hash key v) key
        (get_raw hash (m.insert hash key v) key
          (m.insert hash key v).params.n_marker_bits |||
            2 ^ p)).mask_or_insert hash key v2).1 =
        (insert_raw hash (m.insert hash key v) key
          (get_raw hash (m.insert hash key v) key
            (m.insert hash key v).params.n_marker_bits ||| 2 ^ p), false).1
      rw [hmask2]
    · show (((insert_raw hash (m.insert hash key v) key
        (get_raw hash (m.insert hash key v) key
          (m.insert hash key v).params.n_marker_bits |||
            2 ^ p)).mask_or_insert hash key v2).1).get hash key = .indeterminate
      rw [hmask2]
      exact get_indeterminate_of_gt hash _ key hgt2

theorem mask_after_insert_indeterminate_witness :
    (popcountW (rank 1 2) 128 = 2 ∧ rank 1 2 < 2 ^ 4 ∧
      popcountW (rank 2 2) 128 = 2 ∧ rank 2 2 < 2 ^ 4 ∧
      unrank (rank 1 2) = 1 ∧ unrank (rank 2 2) = 2 ∧ (1 : Nat) ≠ 2) ∧
    ((((⟨0, 24, ⟨2, 4, 2⟩⟩ : BFieldMember).insert (fun _ => (0, 8)) [0]
        1).mask_or_insert (fun _ => (0, 8)) [0] 2).2 = false ∧
      ((((⟨0, 24, ⟨2, 4, 2⟩⟩ : BFieldMember).insert (fun _ => (0, 8)) [0]
        1).mask_or_insert (fun _ => (0, 8)) [0] 2).1).get (fun _ => (0, 8)) [0] =
        .indeterminate ∧
      (((((⟨0, 24, ⟨2, 4, 2⟩⟩ : BFieldMember).insert (fun _ => (0, 8)) [0]
        1).mask_or_insert (fun _ => (0, 8)) [0] 2).1).mask_or_insert
        (fun _ => (0, 8)) [0] 3).2 = false) :=
  ⟨⟨by decide, by decide, by decide, by decide, by decide, by decide, by decide⟩,
    have h := mask_after_insert_indeterminate (fun _ => (0, 8))
      ⟨0, 24, ⟨2, 4, 2⟩⟩ [0] 1 2 (by decide) (by decide) (by decide) (by decide)
      (by decide) (by decide) (by decide) (by decide) (by decide)
    ⟨h.1, h.2.1, (h.2.2 3).1⟩⟩

/-- Claim C6: mask_or_insert is idempotent on the member state — running it a
second time with the same key and value writes nothing and returns the member
in exactly the state the first call left it. -/
theorem mask_or_insert_idempotent (hash : Key → Nat × Nat) (m : BFieldMember)
    (key : Key) (v : Nat)
    (hmw : m.params.marker_width ≤ 128)
    (hκν : m.params.n_marker_bits < m.params.marker_width)
    (hpc : popcountW (rank v m.params.n_marker_bits) 128 =
      m.params.n_marker_bits)
    (hlt : rank v m.params.n_marker_bits < 2 ^ m.params.marker_width) :
    (((m.mask_or_insert hash key v).1).mask_or_insert hash key v).1 =
      (m.mask_or_insert hash key v).1 := by
  by_cases hgt : popcountW (get_raw hash m key m.params.n_marker_bits) 128 >
      m.params.n_marker_bits
  · have h1 := mask_or_insert_of_gt hash m key v hgt
    rw [h1]
    show ((m.mask_or_insert hash key v).1) = m
    rw [h1]
  · by_cases heq : popcountW (get_raw hash m key m.params.n_marker_bits) 128 =
        m.params.n_marker_bits
    · by_cases hEc : get_raw hash m key m.params.n_marker_bits =
          rank v m.params.n_marker_bits
      · have h1 := mask_or_insert_eq_self hash m key v heq hEc
        rw [h1]
        show ((m.mask_or_insert hash key v).1) = m
        rw [h1]
      · have hκ1 : 1 ≤ m.params.n_marker_bits := by
          by_contra hc
          have h0 : m.params.n_marker_bits = 0 := by omega
          apply hEc
          have hE0 : get_raw hash m key m.params.n_marker_bits = 0 :=
            eq_zero_of_popcountW (get_raw_lt hash m key _) (by rw [heq, h0])
          rw [hE0, h0]
          rfl
        have hk1n : 1 ≤ m.params.n_hashes := by
          by_contra hc
          have h0 : m.params.n_hashes = 0 := by omega
          have hE := get_raw_of_no_hashes hash m key m.params.n_marker_bits h0
          rw [hE, popcountW_all_ones] at heq
          omega
        have hElt : get_raw hash m key m.params.n_marker_bits <
            2 ^ m.params.marker_width := get_raw_lt_width hash m key _ hk1n
        obtain ⟨p, hpκ, hpν, hunset, hlow, hrun, hpcnew, hiter⟩ :=
          mask_loop_spec (get_raw hash m key m.params.n_marker_bits)
            m.params.n_marker_bits m.params.marker_width hκ1 hκν hmw
            (get_raw_lt hash m key _) heq
        have h1 := mask_or_insert_mask_branch hash m key v heq hEc
        rw [hrun] at h1
        have hnmlt : get_raw hash m key m.params.n_marker_bits ||| 2 ^ p <
            2 ^ m.params.marker_width :=
          lor_lt_two_pow hElt (Nat.pow_lt_pow_right (by omega) hpν)
        have hinst2 := insert_raw_installedAt hash m key _ hnmlt
        have hgt2 : popcountW (get_raw hash
            (insert_raw hash m key
              (get_raw hash m key m.params.n_marker_bits ||| 2 ^ p)) key
            (insert_raw hash m key
              (get_raw hash m key m.params.n_marker_bits |||
                2 ^ p)).params.n_marker_bits) 128 >
            (insert_raw hash m key
              (get_raw hash m key m.params.n_marker_bits |||
                2 ^ p)).params.n_marker_bits := by
          apply get_raw_popcount_gt hash _ key hinst2
            (lt_of_lt_of_le hnmlt (Nat.pow_le_pow_right (by omega) hmw))
          rw [hpcnew]
          show m.params.n_marker_bits < m.params.n_marker_bits + 1
          omega
        rw [h1]
        show ((insert_raw hash m key
          (get_raw hash m key m.params.n_marker_bits ||| 2 ^ p)).mask_or_insert
            hash key v).1 =
          insert_raw hash m key
            (get_raw hash m key m.params.n_marker_bits ||| 2 ^ p)
        rw [mask_or_insert_of_gt hash _ key v hgt2]
    · have hltpc : popcountW (get_raw hash m key m.params.n_marker_bits) 128 <
          m.params.n_marker_bits := by omega
      have h1 := mask_or_insert_lt_branch hash m key v hltpc
      have hinst2 :=
        insert_raw_installedAt hash m key (rank v m.params.n_marker_bits) hlt
      have hmk128 : rank v m.params.n_marker_bits < 2 ^ 128 :=
        lt_of_lt_of_le hlt (Nat.pow_le_pow_right (by omega) hmw)
      have hsubE : bitSub (rank v m.params.n_marker_bits)
          (get_raw hash (insert_raw hash m key (rank v m.params.n_marker_bits))
            key (insert_raw hash m key
              (rank v m.params.n_marker_bits)).params.n_marker_bits) :=
        get_raw_sub hash _ key hinst2 (Nat.le_of_eq hpc.symm) hmk128
      have hge := popcountW_mono 128 hsubE
      rw [hpc] at hge
      have hpeq : (insert_raw hash m key
          (rank v m.params.n_marker_bits)).params.n_marker_bits =
          m.params.n_marker_bits := rfl
      rw [h1]
      show ((insert_raw hash m key
        (rank v m.params.n_marker_bits)).mask_or_insert hash key v).1 =
        insert_raw hash m key (rank v m.params.n_marker_bits)
      by_cases hgt2 : popcountW (get_raw hash
          (insert_raw hash m key (rank v m.params.n_marker_bits)) key
          (insert_raw hash m key
            (rank v m.params.n_marker_bits)).params.n_marker_bits) 128 >
          (insert_raw hash m key
            (rank v m.params.n_marker_bits)).params.n_marker_bits
      · rw [mask_or_insert_of_gt hash _ key v hgt2]
      · have heq2 : popcountW (get_raw hash
            (insert_raw hash m key (rank v m.params.n_marker_bits)) key
            (insert_raw hash m key
              (rank v m.params.n_marker_bits)).params.n_marker_bits) 128 =
            (insert_raw hash m key
              (rank v m.params.n_marker_bits)).params.n_marker_bits := by
          rw [hpeq] at hgt2 hge ⊢
          omega
        have hE1eq : rank v m.params.n_marker_bits =
            get_raw hash (insert_raw hash m key
              (rank v m.params.n_marker_bits)) key
              (insert_raw hash m key
                (rank v m.params.n_marker_bits)).params.n_marker_bits :=
          eq_of_bitSub_of_popcountW_le hsubE
            (le_trans (Nat.le_of_eq heq2)
              (le_trans (Nat.le_of_eq hpeq) (Nat.le_of_eq hpc.symm)))
            hmk128 (get_raw_lt hash _ key _)
        rw [mask_or_insert_eq_self hash _ key v heq2 hE1eq.symm]

theorem mask_or_insert_idempotent_witness :
    (popcountW (rank 2 2) 128 = 2 ∧ rank 2 2 < 2 ^ 4) ∧
    ((((⟨0, 24, ⟨2, 4, 2⟩⟩ : BFieldMember).mask_or_insert (fun _ => (0, 8)) [0]
        2).1).mask_or_insert (fun _ => (0, 8)) [0] 2).1 =
      ((⟨0, 24, ⟨2, 4, 2⟩⟩ : BFieldMember).mask_or_insert (fun _ => (0, 8)) [0]
        2).1 :=
  ⟨⟨by decide, by decide⟩,
    mask_or_insert_idempotent (fun _ => (0, 8)) ⟨0, 24, ⟨2, 4, 2⟩⟩ [0] 2
      (by decide) (by decide) (by decide) (by decide)⟩

/-! ## The cascade walk (BField::get) and the cascaded insert pre-check -/

theorem cascade_get_go_cons_ind {hash : Key → Nat × Nat} {key : Key}
    {mm : BFieldMember} {rest : List BFieldMember}
    (h : mm.get hash key = .indeterminate) :
    cascade_get_go hash key (mm :: rest) = cascade_get_go hash key rest := by
  rw [cascade_get_go, h]

theorem cascade_get_go_cons_some {hash : Key → Nat × Nat} {key : Key}
    {mm : BFieldMember} {rest : List BFieldMember} {v : Nat}
    (h : mm.get hash key = .some v) :
    cascade_get_go hash key (mm :: rest) = Option.some v := by
  rw [cascade_get_go, h]

theorem cascade_get_go_cons_none {hash : Key → Nat × Nat} {key : Key}
    {mm : BFieldMember} {rest : List BFieldMember}
    (h : mm.get hash key = .none) :
    cascade_get_go hash key (mm :: rest) = Option.none := by
  rw [cascade_get_go, h]

theorem cascade_get_go_all_ind (hash : Key → Nat × Nat) (key : Key) :
    ∀ (members : List BFieldMember),
      (∀ mem ∈ members, mem.get hash key = .indeterminate) →
      cascade_get_go hash key members = Option.none := by
  intro members
  induction members with
  | nil => intro _; rfl
  | cons mm rest ih =>
    intro hall
    rw [cascade_get_go_cons_ind (hall mm (List.mem_cons_self mm rest))]
    exact ih (fun x hx => hall x (List.mem_cons_of_mem _ hx))

theorem cascade_get_go_at (hash : Key → Nat × Nat) (key : Key) :
    ∀ (members : List BFieldMember) (i : Nat) (hi : i < members.length),
      (∀ j, (hj : j < i) →
        (members.get ⟨j, by omega⟩).get hash key = .indeterminate) →
      (∀ v, (members.get ⟨i, hi⟩).get hash key = .some v →
        cascade_get_go hash key members = Option.some v) ∧
      ((members.get ⟨i, hi⟩).get hash key = .none →
        cascade_get_go hash key members = Option.none) := by
  intro members
  induction members with
  | nil =>
    intro i hi
    exact absurd hi (by simp)
  | cons mm rest ih =>
    intro i hi hprev
    cases i with
    | zero =>
      constructor
      · intro v hv
        exact cascade_get_go_cons_some hv
      · intro hv
        exact cascade_get_go_cons_none hv
    | succ i2 =>
      have h0 : mm.get hash key = .indeterminate := hprev 0 (by omega)
      have hi2 : i2 < rest.length := by
        have := hi
        simp only [List.length_cons] at this
        omega
      have hsub := ih i2 hi2 (fun j hj => hprev (j + 1) (by omega))
      constructor
      · intro v hv
        rw [cascade_get_go_cons_ind h0]
        exact hsub.1 v hv
      · intro hv
        rw [cascade_get_go_cons_ind h0]
        exact hsub.2 hv

/-- Claim C2: BField::get walks the members in order and returns the verdict
of the first member whose lookup is not Indeterminate (None for an absent
verdict, Some v for a decoded one); if every member is Indeterminate, it
returns None. -/
theorem bfield_get_walk (hash : Key → Nat × Nat) (bf : BField) (key : Key) :
    ((∀ mem ∈ bf.members, mem.get hash key = .indeterminate) →
      bf.get hash key = Option.none) ∧
    (∀ i, (hi : i < bf.members.length) →
      (∀ j, (hj : j < i) →
        (bf.members.get ⟨j, by omega⟩).get hash key = .indeterminate) →
      (∀ v, (bf.members.get ⟨i, hi⟩).get hash key = .some v →
        bf.get hash key = Option.some v) ∧
      ((bf.members.get ⟨i, hi⟩).get hash key = .none →
        bf.get hash key = Option.none)) := by
  constructor
  · intro hall
    exact cascade_get_go_all_ind hash key bf.members hall
  · intro i hi hprev
    exact cascade_get_go_at hash key bf.members i hi hprev

theorem bfield_get_walk_witness :
    (((⟨0, 16, ⟨1, 4, 2⟩⟩ : BFieldMember).get (fun _ => (0, 0)) [7] =
      .none) ∧
    BField.get (fun _ => (0, 0)) ⟨[⟨0, 16, ⟨1, 4, 2⟩⟩], false⟩ [7] =
      Option.none) :=
  ⟨by decide,
    ((bfield_get_walk (fun _ => (0, 0)) ⟨[⟨0, 16, ⟨1, 4, 2⟩⟩], false⟩ [7]).2
      0 (by simp) (fun j hj => absurd hj (by omega))).2 (by decide)⟩

theorem modifyNth_length (f : BFieldMember → BFieldMember) :
    ∀ (n : Nat) (l : List BFieldMember), (modifyNth f n l).length = l.length := by
  intro n l
  induction l generalizing n with
  | nil => cases n <;> rfl
  | cons a l ih =>
    cases n with
    | zero => rfl
    | succ n2 =>
      show (a :: modifyNth f n2 l).length = (a :: l).length
      simp [ih n2]

theorem get_modifyNth (f : BFieldMember → BFieldMember) :
    ∀ (l : List BFieldMember) (n j : Nat) (hj : j < l.length)
      (hj2 : j < (modifyNth f n l).length),
      (modifyNth f n l).get ⟨j, hj2⟩ =
        if j = n then f (l.get ⟨j, hj⟩) else l.get ⟨j, hj⟩ := by
  intro l
  induction l with
  | nil =>
    intro n j hj hj2
    exact absurd hj (by simp)
  | cons a l ih =>
    intro n j hj hj2
    cases n with
    | zero =>
      cases j with
      | zero => rfl
      | succ j2 => simp [modifyNth]
    | succ n2 =>
      cases j with
      | zero => simp [modifyNth]
      | succ j2 =>
        have hj2l : j2 < l.length := by
          have := hj
          simp only [List.length_cons] at this
          omega
        have hj2l2 : j2 < (modifyNth f n2 l).length := by
          rw [modifyNth_length]
          exact hj2l
        have hrec := ih n2 j2 hj2l hj2l2
        show (modifyNth f n2 l).get ⟨j2, hj2l2⟩ = _
        rw [hrec]
        by_cases hjn : j2 = n2
        · rw [if_pos hjn, if_pos (by omega)]
          rfl
        · rw [if_neg hjn, if_neg (by omega)]
          rfl

theorem precheck_take_iff (hash : Key → Nat × Nat) (key : Key) :
    ∀ (l : List BFieldMember) (n : Nat),
      insert_precheck hash key (l.take n) = true ↔
      ∀ j, (hj1 : j < n) → (hj2 : j < l.length) →
        (l.get ⟨j, hj2⟩).get hash key = .indeterminate := by
  intro l
  induction l with
  | nil =>
    intro n
    constructor
    · intro _ j _ hj2
      exact absurd hj2 (by simp)
    · intro _
      cases n <;> rfl
  | cons a l ih =>
    intro n
    cases n with
    | zero =>
      constructor
      · intro _ j hj1 _
        exact absurd hj1 (by omega)
      · intro _
        rfl
    | succ n2 =>
      rw [List.take_succ_cons, insert_precheck]
      cases h : a.get hash key with
      | indeterminate =>
        rw [ih n2]
        constructor
        · intro hrest j hj1 hj2
          cases j with
          | zero => exact h
          | succ j2 =>
            exact hrest j2 (by omega) (by
              have := hj2
              simp only [List.length_cons] at this
              omega)
        · intro hall j hj1 hj2
          exact hall (j + 1) (by omega) (by
            simp only [List.length_cons]
            omega)
      | some v =>
        simp only [Bool.false_eq_true, false_iff]
        intro hall
        have h0 : a.get hash key = .indeterminate := hall 0 (by omega) (by simp)
        rw [h] at h0
        exact BFieldLookup.noConfusion h0
      | none =>
        simp only [Bool.false_eq_true, false_iff]
        intro hall
        have h0 : a.get hash key = .indeterminate := hall 0 (by omega) (by simp)
        rw [h] at h0
        exact BFieldLookup.noConfusion h0

/-- Claim C5: insert(key, value, pass) returns false and leaves the b-field
unchanged when some member below pass resolves the key (non-Indeterminate);
otherwise it inserts into member pass (leaving all other members unchanged)
and returns true. -/
theorem bfield_insert_spec (hash : Key → Nat × Nat) (bf : BField) (key : Key)
    (v : Nat) (pass : Nat) (hpass : pass < bf.members.length) :
    ((∃ i, ∃ hi : i < pass, ∃ hi2 : i < bf.members.length,
        (bf.members.get ⟨i, hi2⟩).get hash key ≠ .indeterminate) →
      bf.insert hash key v pass = (bf, false)) ∧
    ((∀ i, (hi : i < pass) → (hi2 : i < bf.members.length) →
        (bf.members.get ⟨i, hi2⟩).get hash key = .indeterminate) →
      (bf.insert hash key v pass).2 = true ∧
      ((bf.insert hash key v pass).1).members.length = bf.members.length ∧
      ∀ j, (hj : j < bf.members.length) →
        (hj2 : j < ((bf.insert hash key v pass).1).members.length) →
        ((bf.insert hash key v pass).1).members.get ⟨j, hj2⟩ =
          if j = pass then (bf.members.get ⟨j, hj⟩).insert hash key v
          else bf.members.get ⟨j, hj⟩) := by
  constructor
  · rintro ⟨i, hi, hi2, hne⟩
    rw [BField.insert]
    rw [if_neg]
    intro hpre
    exact hne ((precheck_take_iff hash key bf.members pass).mp hpre i hi hi2)
  · intro hall
    have hpre : insert_precheck hash key (bf.members.take pass) = true :=
      (precheck_take_iff hash key bf.members pass).mpr
        (fun j hj1 hj2 => hall j hj1 hj2)
    rw [BField.insert, if_pos hpre]
    refine ⟨rfl, modifyNth_length _ pass bf.members, ?_⟩
    intro j hj hj2
    exact get_modifyNth (fun mem => mem.insert hash key v) bf.members pass j hj
      hj2

theorem bfield_insert_spec_witness :
    ((0 : Nat) < 1 ∧
      (BField.insert (fun _ => (0, 0)) ⟨[⟨0, 16, ⟨1, 4, 2⟩⟩], false⟩ [3] 1 0).2 =
        true) :=
  ⟨by omega,
    ((bfield_insert_spec (fun _ => (0, 0)) ⟨[⟨0, 16, ⟨1, 4, 2⟩⟩], false⟩ [3] 1 0
      (by simp)).2 (fun i hi _ => absurd hi (by omega))).1⟩

/-! ## Member evolution under non-destructive cascade inserts -/

/-- One member evolves into another when size and parameters are unchanged
and bits only grow. -/
def memberEvol (m m2 : BFieldMember) : Prop :=
  m2.size = m.size ∧ m2.params = m.params ∧ bitSub m.bits m2.bits

theorem memberEvol_refl (m : BFieldMember) : memberEvol m m :=
  ⟨rfl, rfl, bitSub_refl _⟩

theorem memberEvol_trans {a b c : BFieldMember} (h1 : memberEvol a b)
    (h2 : memberEvol b c) : memberEvol a c :=
  ⟨h2.1.trans h1.1, h2.2.1.trans h1.2.1, bitSub_trans h1.2.2 h2.2.2⟩

theorem memberEvol_insert (hash : Key → Nat × Nat) (m : BFieldMember)
    (key : Key) (v : Nat) : memberEvol m (m.insert hash key v) :=
  ⟨rfl, rfl, insert_raw_grow hash m key _⟩

theorem forall2_evol_refl (l : List BFieldMember) :
    List.Forall₂ memberEvol l l := by
  induction l with
  | nil => exact List.Forall₂.nil
  | cons a l ih => exact List.Forall₂.cons (memberEvol_refl a) ih

theorem forall2_evol_trans :
    ∀ {l1 l2 l3 : List BFieldMember}, List.Forall₂ memberEvol l1 l2 →
      List.Forall₂ memberEvol l2 l3 → List.Forall₂ memberEvol l1 l3 := by
  intro l1 l2 l3 h12
  induction h12 generalizing l3 with
  | nil =>
    intro h23
    cases h23
    exact List.Forall₂.nil
  | cons h t ih =>
    intro h23
    cases h23 with
    | cons h2 t2 => exact List.Forall₂.cons (memberEvol_trans h h2) (ih t2)

theorem forall2_modifyNth (f : BFieldMember → BFieldMember)
    (hf : ∀ mem, memberEvol mem (f mem)) :
    ∀ (n : Nat) (l : List BFieldMember),
      List.Forall₂ memberEvol l (modifyNth f n l) := by
  intro n l
  induction l generalizing n with
  | nil =>
    cases n <;> exact List.Forall₂.nil
  | cons a l ih =>
    cases n with
    | zero => exact List.Forall₂.cons (hf a) (forall2_evol_refl l)
    | succ n2 => exact List.Forall₂.cons (memberEvol_refl a) (ih n2)

theorem bfield_insert_evol (hash : Key → Nat × Nat) (bf : BField) (key : Key)
    (v pass : Nat) :
    List.Forall₂ memberEvol bf.members ((bf.insert hash key v pass).1).members := by
  rw [BField.insert]
  split
  · exact forall2_modifyNth _ (fun mem => memberEvol_insert hash mem key v)
      pass bf.members
  · exact forall2_evol_refl bf.members

/-- A sequence of BField::insert operations, each given as
(key, value, pass). -/
def applyCascadeOps (hash : Key → Nat × Nat) (ops : List (Key × Nat × Nat))
    (bf : BField) : BField :=
  ops.foldl (fun b op => (b.insert hash op.1 op.2.1 op.2.2).1) bf

theorem applyCascadeOps_evol (hash : Key → Nat × Nat)
    (ops : List (Key × Nat × Nat)) :
    ∀ bf : BField,
      List.Forall₂ memberEvol bf.members (applyCascadeOps hash ops bf).members := by
  induction ops with
  | nil => intro bf; exact forall2_evol_refl bf.members
  | cons op rest ih =>
    intro bf
    exact forall2_evol_trans (bfield_insert_evol hash bf op.1 op.2.1 op.2.2)
      (ih ((bf.insert hash op.1 op.2.1 op.2.2).1))

/-- The hash for the C1 counterexample: three distinct keys; with member size
16 and ν = 4 positions are taken mod 12, so key 02 (h0 = 12) collides with
key 00 (h0 = 0) at position 0 in both members. -/
def cex1Hash : Key → Nat × Nat := fun key =>
  match key with
  | [0] => (0, 0)
  | [1] => (2, 0)
  | _ => (12, 0)

/-- Two fresh members, each with n_hashes = 1, ν = 4, κ = 2, size 16. -/
def cex1BF : BField := ⟨[⟨0, 16, ⟨1, 4, 2⟩⟩, ⟨0, 16, ⟨1, 4, 2⟩⟩], false⟩

/-- Claim C1 is false as stated: insert key 00 with value 0 at pass 0
(succeeds), insert key 01 with value 0 at pass 0 (another key, overlapping
windows saturate member 0 for key 00), then insert key 02 with value 2 at
pass 1 (succeeds, because key 02 is indeterminate at member 0).  Key 02's
position in member 1 collides with key 00's, so member 1 decodes the marker
of value 2 for key 00 and get returns Some 2 — a wrong value for key 00,
which was inserted with the valid value 0 and never touched destructively. -/
theorem cascade_get_wrong_value_counterexample :
    (cex1BF.insert cex1Hash [0] 0 0).2 = true ∧
    (((cex1BF.insert cex1Hash [0] 0 0).1.insert cex1Hash [1] 0 0).1.insert
      cex1Hash [2] 2 1).2 = true ∧
    BField.get cex1Hash ((((cex1BF.insert cex1Hash [0] 0 0).1.insert cex1Hash
      [1] 0 0).1.insert cex1Hash [2] 2 1).1) [0] = Option.some 2 ∧
    Option.some (2 : Nat) ≠ Option.some 0 ∧
    Option.some (2 : Nat) ≠ Option.none ∧
    unrank (rank 0 2) = 0 ∧ popcountW (rank 0 2) 128 = 2 :=
  ⟨by decide, by decide, by decide, by decide, by decide, by decide, by decide⟩

/-- Claim C1, amended (member-0 soundness): if insert(key, v, 0) succeeds (it
always does) and no destructive operation touches key, then after any further
sequence of cascaded inserts member 0's verdict on key is Some(v) or
Indeterminate — never None and never a wrong value — and whenever member 0
decides the lookup, BField::get(key) = Some(v).  (A wrong Some(v') can still
escape from a later member when member 0 is indeterminate, as the
counterexample shows; that is the only amendment.) -/
theorem cascade_member0_soundness (hash : Key → Nat × Nat) (bf : BField)
    (key : Key) (v : Nat) (ops : List (Key × Nat × Nat))
    (m0 : BFieldMember) (rest : List BFieldMember)
    (hmem : bf.members = m0 :: rest)
    (hmw : m0.params.marker_width ≤ 128)
    (hpc : popcountW (rank v m0.params.n_marker_bits) 128 =
      m0.params.n_marker_bits)
    (hlt : rank v m0.params.n_marker_bits < 2 ^ m0.params.marker_width)
    (hun : unrank (rank v m0.params.n_marker_bits) = v) (hv : v < 2 ^ 32) :
    (bf.insert hash key v 0).2 = true ∧
    ∀ m02 rest2,
      (applyCascadeOps hash ops (bf.insert hash key v 0).1).members =
        m02 :: rest2 →
      (m02.get hash key = .some v ∨ m02.get hash key = .indeterminate) ∧
      (m02.get hash key = .some v →
        BField.get hash (applyCascadeOps hash ops (bf.insert hash key v 0).1)
          key = Option.some v) := by
  have hmk128 : rank v m0.params.n_marker_bits < 2 ^ 128 :=
    lt_of_lt_of_le hlt (Nat.pow_le_pow_right (by omega) hmw)
  refine ⟨rfl, ?_⟩
  intro m02 rest2 hmem2
  have hbf1 : ((bf.insert hash key v 0).1).members =
      (m0.insert hash key v) :: rest := by
    rw [BField.insert, if_pos (show insert_precheck hash key
      (bf.members.take 0) = true from rfl)]
    show modifyNth (fun mem => mem.insert hash key v) 0 bf.members = _
    rw [hmem]
    rfl
  have hev := applyCascadeOps_evol hash ops ((bf.insert hash key v 0).1)
  rw [hbf1, hmem2] at hev
  cases hev with
  | cons hev0 hevrest =>
    obtain ⟨hsz, hp, hb⟩ := hev0
    have hinst1 : installedAt hash (m0.insert hash key v) key
        (rank v m0.params.n_marker_bits) :=
      insert_raw_installedAt hash m0 key _ hlt
    have hinst2 : installedAt hash m02 key (rank v m0.params.n_marker_bits) :=
      installedAt_mono hsz hp hb hinst1
    have hp0 : m02.params = m0.params :=
      hp.trans (rfl : (m0.insert hash key v).params = m0.params)
    have hdec := get_of_installedAt hash m02 key hinst2
      (by rw [hp0]; exact hpc) hmk128
    rw [hun, Nat.mod_eq_of_lt hv] at hdec
    refine ⟨hdec, ?_⟩
    intro hsome
    rw [BField.get, hmem2]
    exact cascade_get_go_cons_some hsome

theorem cascade_member0_soundness_witness :
    (((⟨[⟨0, 24, ⟨1, 4, 2⟩⟩], false⟩ : BField).members =
        (⟨0, 24, ⟨1, 4, 2⟩⟩ : BFieldMember) :: [] ∧
      popcountW (rank 1 2) 128 = 2 ∧ rank 1 2 < 2 ^ 4 ∧
      unrank (rank 1 2) = 1 ∧ (1 : Nat) < 2 ^ 32 ∧
      (applyCascadeOps (fun _ => (0, 0)) []
        (BField.insert (fun _ => (0, 0)) ⟨[⟨0, 24, ⟨1, 4, 2⟩⟩], false⟩ [9] 1
          0).1).members = (⟨5, 24, ⟨1, 4, 2⟩⟩ : BFieldMember) :: []) ∧
    ((BField.insert (fun _ => (0, 0)) ⟨[⟨0, 24, ⟨1, 4, 2⟩⟩], false⟩ [9] 1
        0).2 = true ∧
      ((⟨5, 24, ⟨1, 4, 2⟩⟩ : BFieldMember).get (fun _ => (0, 0)) [9] =
          .some 1 ∨
        (⟨5, 24, ⟨1, 4, 2⟩⟩ : BFieldMember).get (fun _ => (0, 0)) [9] =
          .indeterminate))) :=
  ⟨⟨rfl, by decide, by decide, by decide, by norm_num, by decide⟩,
    have h := cascade_member0_soundness (fun _ => (0, 0))
      ⟨[⟨0, 24, ⟨1, 4, 2⟩⟩], false⟩ [9] 1 [] ⟨0, 24, ⟨1, 4, 2⟩⟩ [] rfl
      (by decide) (by decide) (by decide) (by decide) (by norm_num)
    ⟨h.1, (h.2 ⟨5, 24, ⟨1, 4, 2⟩⟩ [] (by decide)).1⟩⟩

end RustBfield
